import Mathlib

/-!
Verification development for the Text-to-SQL Streamlit dashboard.

This file gives a shallow embedding, over lists of characters, of the
string-processing core of the repository:

  - llm_text2sql.py : get_schema_text, _extract_sql
  - query_executor.py : run_sql_query
  - graph_utils.py : decide_chart_type

and proves properties of the embedded functions.  Python strings are
modelled as `List Char`; the two regular expressions used by
_extract_sql are modelled by explicit leftmost-match scanning functions
that mirror the backtracking semantics of the Python re module on those
patterns.  Case folding and word characters are modelled at the ASCII
level (the source only ever compares against ASCII keywords; Python's
re.IGNORECASE additionally folds a handful of non-ASCII codepoints,
which the source never relies on).
-/

namespace TextToSql

/-- Python strings are modelled as lists of unicode scalar values. -/
abbrev Str := List Char

/-- Conversion from Lean string literals to the model type. -/
def str (s : String) : Str := s.toList

/-- The backtick character (written by code to keep the source free of
raw backticks). -/
def tickC : Char := '\x60'

/-- Three backticks, the markdown fence marker of _extract_sql. -/
def tick3 : Str := [tickC, tickC, tickC]

/-- ASCII lowercasing: model of the case folding performed by the
re.IGNORECASE comparisons and str.lower() calls in the source. -/
def asciiLower (c : Char) : Char :=
  if 65 ≤ c.toNat ∧ c.toNat ≤ 90 then Char.ofNat (c.toNat + 32) else c

/-- Model of Python's whitespace class, as stripped by str.strip():
the characters for which str.isspace() holds. -/
def isPySpace (c : Char) : Bool :=
  decide (c.toNat ∈ [9, 10, 11, 12, 13, 28, 29, 30, 31, 32, 133, 160, 5760,
    8192, 8193, 8194, 8195, 8196, 8197, 8198, 8199, 8200, 8201, 8202,
    8232, 8233, 8239, 8287, 12288])

/-- Model of the line boundaries recognised by Python's str.splitlines(). -/
def isLineBreak (c : Char) : Bool :=
  decide (c.toNat ∈ [10, 11, 12, 13, 28, 29, 30, 133, 8232, 8233])

/-- Model of the regex word class, restricted to its ASCII fragment
[a-zA-Z0-9_], used for the word boundaries in the keyword search of
_extract_sql.  Python str patterns additionally count every non-ASCII
Unicode letter and digit as a word character, which this embedding does
not model; theorems whose truth depends on word boundaries therefore
carry an explicit ASCII-input hypothesis under which this fragment is
exact. -/
def isWordChar (c : Char) : Bool :=
  (48 ≤ c.toNat && c.toNat ≤ 57) || (65 ≤ c.toNat && c.toNat ≤ 90) ||
    (97 ≤ c.toNat && c.toNat ≤ 122) || c.toNat == 95

/-- ASCII letters (helper predicate for reasoning about keywords). -/
def isAsciiLetter (c : Char) : Bool :=
  (65 ≤ c.toNat && c.toNat ≤ 90) || (97 ≤ c.toNat && c.toNat ≤ 122)

/-- Case-insensitive prefix test: the first chars of s, lowercased,
equal the (lowercase) pattern. -/
def ciPref (pat s : Str) : Bool :=
  decide ((s.take pat.length).map asciiLower = pat)

/-- Python str.lstrip() with no arguments. -/
def lstrip (s : Str) : Str := s.dropWhile isPySpace

/-- Python str.rstrip() with no arguments. -/
def rstrip (s : Str) : Str := (s.reverse.dropWhile isPySpace).reverse

/-- Python str.strip() with no arguments. -/
def pyStrip (s : Str) : Str := rstrip (lstrip s)

/-- Helper for splitlines: prepend a character to the first line of a
line list (or open a first line when there is none). -/
def consFst (c : Char) : List Str → List Str
  | [] => [[c]]
  | l :: ls => (c :: l) :: ls

/-- Model of Python str.splitlines(): split at every line boundary,
treating a carriage return followed by a newline as a single boundary;
a trailing boundary does not produce an extra empty line. -/
def splitlines : Str → List Str
  | [] => []
  | '\r' :: '\n' :: rest => [] :: splitlines rest
  | c :: rest =>
    if isLineBreak c then [] :: splitlines rest else consFst c (splitlines rest)

/-- Model of "\n".join(lines). -/
def joinNL : List Str → Str
  | [] => []
  | [l] => l
  | l :: ls => l ++ '\n' :: joinNL ls

/-- Model of Python str.find for a single character: index of the first
occurrence, if any. -/
def pyFind (c : Char) : Str → Option Nat
  | [] => none
  | a :: tl => if a = c then some 0 else (pyFind c tl).map (· + 1)

/-- Index of the first occurrence of three consecutive backticks. -/
def findTick3 : Str → Option Nat
  | [] => none
  | a :: tl =>
    if tick3.isPrefixOf (a :: tl) then some 0 else (findTick3 tl).map (· + 1)

/-- Anchored match of the fence pattern at the start of s:
three backticks, an optional case-insensitive sql tag (tried first, as
the greedy option group does), then a lazily matched interior up to the
next three backticks.  Returns the captured interior.  When the sql tag
matches but no closing fence follows it, no closing fence follows the
opening fence at all (the tag characters are not backticks), so the
whole anchored match fails, exactly as in the Python engine. -/
def fenceAt (s : Str) : Option Str :=
  if tick3.isPrefixOf s then
    let r := s.drop 3
    if ciPref (str ("sql")) r then
      (findTick3 (r.drop 3)).map (fun k => (r.drop 3).take k)
    else
      (findTick3 r).map (fun k => r.take k)
  else none

/-- Leftmost search for the fence pattern, as re.search does: try an
anchored match at every position from the left, returning the first
captured interior. -/
def fenceSearch : Str → Option Str
  | [] => none
  | c :: tl =>
    match fenceAt (c :: tl) with
    | some r => some r
    | none => fenceSearch tl

/-- Word boundary after a keyword: end of input or a non-word char. -/
def boundaryAfter (s : Str) : Bool :=
  match s.head? with
  | none => true
  | some c => !isWordChar c

/-- Anchored match of the keyword alternation (select|with) with its
trailing word boundary, case-insensitively, at the start of s. -/
def kwMatchAt (s : Str) : Bool :=
  (ciPref (str ("select")) s && boundaryAfter (s.drop 6)) ||
    (ciPref (str ("with")) s && boundaryAfter (s.drop 4))

/-- Word boundary before a keyword: start of input or a non-word char. -/
def prevNonWord : Option Char → Bool
  | none => true
  | some c => !isWordChar c

/-- Leftmost scan for the keyword pattern, tracking the previous
character for the leading word boundary. -/
def kwSearchGo (prev : Option Char) : Str → Option Nat
  | [] => none
  | c :: tl =>
    if prevNonWord prev && kwMatchAt (c :: tl) then some 0
    else (kwSearchGo (some c) tl).map (· + 1)

/-- Start position of the leftmost match of the keyword regex
(?is)\b(select|with)\b.* in the text, if any. -/
def kwSearch (t : Str) : Option Nat := kwSearchGo none t

/-- Candidate selection of _extract_sql (llm_text2sql.py lines 29-34):
the interior of the first fenced block if one matches, otherwise
everything from the first whole-word select/with keyword, otherwise the
whole text. -/
def candidateOf (text : Str) : Str :=
  match fenceSearch text with
  | some interior => interior
  | none =>
    match kwSearch text with
    | some p => text.drop p
    | none => text

/-- Line filter of _extract_sql (lines 37-41): a line survives unless
its stripped form starts with a line comment marker or a fence marker. -/
def keepLine (line : Str) : Bool :=
  let s := pyStrip line
  !((str ("--")).isPrefixOf s || (str ("#")).isPrefixOf s ||
      tick3.isPrefixOf s)

/-- Comment stripping and rejoining of _extract_sql (lines 36-42):
surviving lines rejoined with newlines and stripped. -/
def preTruncSql (candidate : Str) : Str :=
  pyStrip (joinNL ((splitlines candidate).filter keepLine))

/-- Truncation at the first semicolon, inclusive (lines 44-46): when a
semicolon occurs, keep everything up to and including the first one. -/
def truncAtSemi (sql : Str) : Str :=
  match pyFind ';' sql with
  | some i => sql.take (i + 1)
  | none => sql

/-- Terminator guarantee (lines 47-48): append a semicolon unless the
string already ends with one. -/
def ensureSemi (sql : Str) : Str :=
  if sql.getLast? = some ';' then sql else sql ++ [';']

/-- Terminator normalization of _extract_sql (lines 44-49): truncate at
the first semicolon inclusive, append one if absent, and strip. -/
def finishCandidate (candidate : Str) : Str :=
  pyStrip (ensureSemi (truncAtSemi (preTruncSql candidate)))

/-- Model of _extract_sql (llm_text2sql.py lines 28-49). -/
def _extract_sql (text : Str) : Str :=
  finishCandidate (candidateOf text)

/-! ### Character class facts -/

theorem letter_props {c : Char} (h : isAsciiLetter c = true) :
    isPySpace c = false ∧ isLineBreak c = false ∧ c ≠ ';' ∧ c ≠ '-' ∧
      c ≠ '#' ∧ c ≠ tickC := by
  have hn : (65 ≤ c.toNat ∧ c.toNat ≤ 90) ∨ (97 ≤ c.toNat ∧ c.toNat ≤ 122) := by
    simpa [isAsciiLetter, Bool.or_eq_true, decide_eq_true_eq] using h
  refine ⟨?_, ?_, ?_, ?_, ?_, ?_⟩
  · simp only [isPySpace, decide_eq_false_iff_not, List.mem_cons,
      List.not_mem_nil, or_false]
    omega
  · simp only [isLineBreak, decide_eq_false_iff_not, List.mem_cons,
      List.not_mem_nil, or_false]
    omega
  · rintro rfl; revert hn; decide
  · rintro rfl; revert hn; decide
  · rintro rfl; revert hn; decide
  · rintro rfl; revert hn; decide

theorem semi_not_space : isPySpace ';' = false := by decide

theorem semi_not_break : isLineBreak ';' = false := by decide

theorem nl_is_break : isLineBreak '\n' = true := by decide

theorem break_is_space {c : Char} (h : isLineBreak c = true) :
    isPySpace c = true := by
  simp only [isLineBreak, decide_eq_true_eq, List.mem_cons,
    List.not_mem_nil, or_false] at h
  simp only [isPySpace, decide_eq_true_eq, List.mem_cons,
    List.not_mem_nil, or_false]
  omega

/-- Characters of the select and with keywords, recovered from a
case-insensitive match, are ASCII letters. -/
theorem letter_of_lower {c x : Char} (hx : isAsciiLetter x = true)
    (h : asciiLower c = x) : isAsciiLetter c = true := by
  unfold asciiLower at h
  split at h
  · rename_i hr
    simp only [isAsciiLetter, Bool.or_eq_true, decide_eq_true_eq,
      Bool.and_eq_true]
    left
    omega
  · rw [h]; exact hx

/-! ### Strip lemmas -/

theorem head?_dropWhile_false {p : Char → Bool} {s : Str} {c : Char}
    (h : (s.dropWhile p).head? = some c) : p c = false := by
  have := List.head?_dropWhile_not p s
  rw [h] at this
  simpa using this

theorem lstrip_head_not_space {s : Str} {c : Char}
    (h : (lstrip s).head? = some c) : isPySpace c = false :=
  head?_dropWhile_false h

theorem rstrip_pref (s : Str) : rstrip s <+: s := by
  have h : s.reverse.dropWhile isPySpace <:+ s.reverse :=
    List.dropWhile_suffix isPySpace
  rw [← List.reverse_prefix] at h
  simpa [rstrip] using h

theorem rstrip_getLast_not_space {s : Str} {c : Char}
    (h : (rstrip s).getLast? = some c) : isPySpace c = false := by
  unfold rstrip at h
  rw [List.getLast?_reverse] at h
  exact head?_dropWhile_false h

theorem head?_of_pref {a b : Str} {c : Char} (hp : a <+: b)
    (h : a.head? = some c) : b.head? = some c := by
  obtain ⟨t, rfl⟩ := hp
  cases a with
  | nil => simp at h
  | cons x xs => simpa using h

theorem pyStrip_head_not_space {s : Str} {c : Char}
    (h : (pyStrip s).head? = some c) : isPySpace c = false := by
  unfold pyStrip at h
  exact lstrip_head_not_space (head?_of_pref (rstrip_pref (lstrip s)) h)

theorem pyStrip_getLast_not_space {s : Str} {c : Char}
    (h : (pyStrip s).getLast? = some c) : isPySpace c = false :=
  rstrip_getLast_not_space h

theorem lstrip_eq_self {s : Str}
    (h : ∀ c, s.head? = some c → isPySpace c = false) : lstrip s = s := by
  cases s with
  | nil => rfl
  | cons a tl =>
    unfold lstrip
    rw [List.dropWhile_cons, if_neg]
    simp [h a rfl]

theorem rstrip_eq_self {s : Str}
    (h : ∀ c, s.getLast? = some c → isPySpace c = false) : rstrip s = s := by
  unfold rstrip
  have h2 : ∀ c, s.reverse.head? = some c → isPySpace c = false := by
    intro c hc
    rw [List.head?_reverse] at hc
    exact h c hc
  rw [show s.reverse.dropWhile isPySpace = s.reverse from lstrip_eq_self h2]
  exact List.reverse_reverse s

theorem pyStrip_eq_self {s : Str}
    (hh : ∀ c, s.head? = some c → isPySpace c = false)
    (hl : ∀ c, s.getLast? = some c → isPySpace c = false) : pyStrip s = s := by
  unfold pyStrip
  rw [lstrip_eq_self hh, rstrip_eq_self hl]

theorem pyStrip_idem (s : Str) : pyStrip (pyStrip s) = pyStrip s :=
  pyStrip_eq_self (fun _ h => pyStrip_head_not_space h)
    (fun _ h => pyStrip_getLast_not_space h)

theorem lstrip_cons_not_space {c : Char} {w : Str}
    (h : isPySpace c = false) : lstrip (c :: w) = c :: w := by
  unfold lstrip
  rw [List.dropWhile_cons, if_neg]
  simp [h]

theorem rstrip_append {w x : Str} (hw : ∀ c ∈ w, isPySpace c = false) :
    rstrip (w ++ x) = w ++ rstrip x := by
  unfold rstrip
  rw [List.reverse_append, List.dropWhile_append]
  split
  · rename_i hxe
    have hx : x.reverse.dropWhile isPySpace = [] := by simpa using hxe
    rw [hx]
    have : w.reverse.dropWhile isPySpace = w.reverse := by
      apply lstrip_eq_self
      intro c hc
      rw [List.head?_reverse] at hc
      exact hw c (List.mem_of_mem_getLast? hc)
    rw [this]
    simp
  · simp

theorem pyStrip_append_letters {w x : Str}
    (hw : ∀ c ∈ w, isPySpace c = false) (hne : w ≠ []) :
    pyStrip (w ++ x) = w ++ rstrip x := by
  unfold pyStrip
  cases w with
  | nil => exact absurd rfl hne
  | cons a tl =>
    rw [show lstrip ((a :: tl) ++ x) = (a :: tl) ++ x from
      lstrip_cons_not_space (hw a (by simp))]
    exact rstrip_append hw

/-! ### pyFind lemmas -/

theorem pyFind_cons (c a : Char) (tl : Str) :
    pyFind c (a :: tl) = if a = c then some 0 else (pyFind c tl).map (· + 1) :=
  rfl

theorem pyFind_eq_none {c : Char} {s : Str} : pyFind c s = none ↔ c ∉ s := by
  induction s with
  | nil => simp [pyFind]
  | cons a tl ih =>
    rw [pyFind_cons]
    by_cases h : a = c
    · simp [h]
    · simp [h, ih, Ne.symm h]

theorem pyFind_some {c : Char} {s : Str} {i : Nat} (h : pyFind c s = some i) :
    ∃ a b, s = a ++ c :: b ∧ c ∉ a ∧ a.length = i := by
  induction s generalizing i with
  | nil => simp [pyFind] at h
  | cons x tl ih =>
    rw [pyFind_cons] at h
    by_cases hx : x = c
    · rw [if_pos hx] at h
      refine ⟨[], tl, ?_, by simp, ?_⟩
      · simp [hx]
      · simpa using h
    · rw [if_neg hx] at h
      obtain ⟨j, hj, rfl⟩ := Option.map_eq_some'.mp h
      obtain ⟨a, b, rfl, hna, hla⟩ := ih hj
      exact ⟨x :: a, b, by simp, by simp [hna, Ne.symm hx], by simp [hla]⟩

theorem pyFind_append_none {c : Char} {a t : Str} (h : c ∉ a) :
    pyFind c (a ++ t) = (pyFind c t).map (· + a.length) := by
  induction a with
  | nil => cases h' : pyFind c t <;> simp [h']
  | cons x tl ih =>
    have hx : x ≠ c := by rintro rfl; exact h (by simp)
    have hm : c ∉ tl := fun hc => h (by simp [hc])
    rw [List.cons_append, pyFind_cons]
    rw [if_neg hx, ih hm]
    cases h' : pyFind c t with
    | none => simp
    | some j =>
      simp only [Option.map_some', List.length_cons, Option.some.injEq]
      omega

theorem pyFind_first {c : Char} {a b : Str} (h : c ∉ a) :
    pyFind c (a ++ c :: b) = some a.length := by
  rw [pyFind_append_none h]
  unfold pyFind
  simp

/-! ### splitlines and joinNL lemmas -/

theorem sl_crlf (rest : Str) :
    splitlines ('\r' :: '\n' :: rest) = [] :: splitlines rest := rfl

theorem sl_nonbreak {c : Char} (rest : Str) (h : isLineBreak c = false) :
    splitlines (c :: rest) = consFst c (splitlines rest) := by
  have hc : c ≠ '\r' := by rintro rfl; simp [isLineBreak] at h
  cases rest with
  | nil => simp [splitlines, h]
  | cons d tl =>
    by_cases hd : d = '\n'
    · subst hd; simp [splitlines, h, hc]
    · simp [splitlines, h, hc, hd]

theorem sl_break {c : Char} (rest : Str) (h : isLineBreak c = true)
    (h2 : ¬(c = '\r' ∧ rest.head? = some '\n')) :
    splitlines (c :: rest) = [] :: splitlines rest := by
  cases rest with
  | nil => simp [splitlines, h]
  | cons d tl =>
    by_cases hc : c = '\r'
    · subst hc
      have hd : d ≠ '\n' := by intro hd; exact h2 ⟨rfl, by simp [hd]⟩
      simp [splitlines, h, hd]
    · by_cases hd : d = '\n'
      · subst hd; simp [splitlines, h, hc]
      · simp [splitlines, h, hc, hd]

theorem sl_cons_ne_nil (c : Char) (rest : Str) : splitlines (c :: rest) ≠ [] := by
  by_cases hb : isLineBreak c
  · by_cases h2 : c = '\r' ∧ rest.head? = some '\n'
    · obtain ⟨rfl, hh⟩ := h2
      cases rest with
      | nil => simp at hh
      | cons d tl =>
        have : d = '\n' := by simpa using hh
        subst this
        rw [sl_crlf]
        simp
    · rw [sl_break rest hb h2]; simp
  · rw [sl_nonbreak rest (by simpa using hb)]
    cases splitlines rest <;> simp [consFst]

theorem sl_eq_nil {s : Str} : splitlines s = [] ↔ s = [] := by
  cases s with
  | nil => simp [splitlines]
  | cons c rest => simp [sl_cons_ne_nil c rest]

theorem mem_consFst {l : Str} {c : Char} {L : List Str} (h : l ∈ consFst c L) :
    (L = [] ∧ l = [c]) ∨ ∃ t ts, L = t :: ts ∧ (l = c :: t ∨ l ∈ ts) := by
  cases L with
  | nil => simp [consFst] at h; simp [h]
  | cons t ts =>
    simp [consFst] at h
    exact Or.inr ⟨t, ts, rfl, h⟩

theorem pair_cond_of_induct {c : Char} {rest : Str}
    (h1 : ∀ (r : Str), c = '\r' → rest = '\n' :: r → False) :
    ¬(c = '\r' ∧ rest.head? = some '\n') := by
  rintro ⟨rfl, hh⟩
  cases rest with
  | nil => simp at hh
  | cons d tl =>
    have hd : d = '\n' := by simpa using hh
    exact h1 tl rfl (by rw [hd])

theorem sl_no_break {s : Str} :
    ∀ l ∈ splitlines s, ∀ c ∈ l, isLineBreak c = false := by
  induction s using splitlines.induct with
  | case1 => simp [splitlines]
  | case2 rest ih =>
    rw [sl_crlf]
    intro l hl
    rcases List.mem_cons.mp hl with rfl | hl
    · simp
    · exact ih l hl
  | case3 c rest h1 hb ih =>
    rw [sl_break rest hb (pair_cond_of_induct h1)]
    intro l hl
    rcases List.mem_cons.mp hl with rfl | hl
    · simp
    · exact ih l hl
  | case4 c rest h1 hb ih =>
    rw [sl_nonbreak rest (by simpa using hb)]
    intro l hl
    rcases mem_consFst hl with ⟨hL, rfl⟩ | ⟨t, ts, hL, rfl | hmem⟩
    · intro d hd
      have hdc : d = c := by simpa using hd
      subst hdc
      simpa using hb
    · intro d hd
      rcases List.mem_cons.mp hd with rfl | hd
      · simpa using hb
      · exact ih t (by rw [hL]; simp) d hd
    · exact ih l (by rw [hL]; simp [hmem])

theorem joinNL_cons {l : Str} {ls : List Str} (h : ls ≠ []) :
    joinNL (l :: ls) = l ++ '\n' :: joinNL ls := by
  cases ls with
  | nil => exact absurd rfl h
  | cons a tl => rfl

theorem joinNL_consFst (c : Char) (L : List Str) :
    joinNL (consFst c L) = c :: joinNL L := by
  cases L with
  | nil => rfl
  | cons l ls => cases ls <;> rfl

theorem getLast?_cons_ne {α : Type} {c : α} {rest : List α} (h : rest ≠ []) :
    (c :: rest).getLast? = rest.getLast? := by
  simpa using List.getLast?_append_of_ne_nil [c] h

/-- Rejoining the split of a string whose only line boundaries are plain
newlines, and which does not end in a newline, restores the string. -/
theorem joinNL_splitlines {s : Str}
    (h1 : ∀ c ∈ s, isLineBreak c = true → c = '\n')
    (h2 : s.getLast? ≠ some '\n') : joinNL (splitlines s) = s := by
  induction s with
  | nil => simp [splitlines, joinNL]
  | cons c rest ih =>
    by_cases hb : isLineBreak c
    · have hcn : c = '\n' := h1 c (by simp) hb
      subst hcn
      have hrest : rest ≠ [] := by
        rintro rfl
        exact h2 (by simp)
      rw [sl_break rest (by decide) (by rintro ⟨h, _⟩; exact absurd h (by decide))]
      rw [joinNL_cons (by simpa [sl_eq_nil] using hrest)]
      rw [ih (fun d hd hbd => h1 d (by simp [hd]) hbd)
        (by rwa [getLast?_cons_ne hrest] at h2)]
      simp
    · rw [sl_nonbreak rest (by simpa using hb), joinNL_consFst]
      by_cases hrest : rest = []
      · subst hrest; simp [splitlines, joinNL]
      · rw [ih (fun d hd hbd => h1 d (by simp [hd]) hbd)
          (by rwa [getLast?_cons_ne hrest] at h2)]

theorem sl_single_nonbreak {l : Str} (h : ∀ c ∈ l, isLineBreak c = false) :
    splitlines l = if l = [] then [] else [l] := by
  induction l with
  | nil => simp [splitlines]
  | cons c tl ih =>
    rw [sl_nonbreak tl (h c (by simp))]
    rw [ih (fun d hd => h d (by simp [hd]))]
    by_cases htl : tl = []
    · subst htl; simp [consFst]
    · simp [htl, consFst]

theorem sl_append_nl {l : Str} (T : Str)
    (h : ∀ c ∈ l, isLineBreak c = false) :
    splitlines (l ++ '\n' :: T) = l :: splitlines T := by
  induction l with
  | nil =>
    rw [List.nil_append]
    rw [sl_break T (by decide) (by rintro ⟨hh, _⟩; exact absurd hh (by decide))]
  | cons c tl ih =>
    rw [List.cons_append, sl_nonbreak (tl ++ '\n' :: T) (h c (by simp))]
    rw [ih (fun d hd => h d (by simp [hd]))]
    rfl

/-- Splitting the newline-join of break-free lines recovers the lines,
except that one trailing empty line is absorbed by the trailing newline. -/
theorem sl_joinNL {K : List Str}
    (h : ∀ l ∈ K, ∀ c ∈ l, isLineBreak c = false) :
    splitlines (joinNL K) =
      if K.getLast? = some ([] : Str) then K.dropLast else K := by
  induction K with
  | nil => simp [joinNL, splitlines]
  | cons l ls ih =>
    cases ls with
    | nil =>
      rw [show joinNL [l] = l from rfl]
      rw [sl_single_nonbreak (h l (by simp))]
      by_cases hl : l = []
      · subst hl; simp
      · simp [hl]
    | cons m ms =>
      rw [show joinNL (l :: m :: ms) = l ++ '\n' :: joinNL (m :: ms) from rfl]
      rw [sl_append_nl (joinNL (m :: ms)) (h l (by simp))]
      rw [ih (fun t ht c hc => h t (by simp [ht]) c hc)]
      by_cases hg : (m :: ms).getLast? = some ([] : Str)
      · have hg2 : (l :: m :: ms).getLast? = some ([] : Str) := by
          rw [getLast?_cons_ne (by simp)]; exact hg
        rw [if_pos hg, if_pos hg2]
        rfl
      · have hg2 : ¬(l :: m :: ms).getLast? = some ([] : Str) := by
          rw [getLast?_cons_ne (by simp)]; exact hg
        rw [if_neg hg, if_neg hg2]

theorem keepAll_joinNL {K : List Str}
    (hbf : ∀ l ∈ K, ∀ c ∈ l, isLineBreak c = false)
    {l : Str} (hl : l ∈ splitlines (joinNL K)) : l ∈ K := by
  rw [sl_joinNL hbf] at hl
  split at hl
  · exact List.dropLast_subset K hl
  · exact hl

theorem head?_take {l : Str} {m : Nat} {x : Char}
    (h : (l.take m).head? = some x) : l.head? = some x := by
  cases m <;> cases l <;> simp_all

/-- Lines of a prefix of s: an initial run of full lines of s followed by
a prefix of the next line of s. -/
theorem sl_take (s : Str) (n : Nat) :
    splitlines (s.take n) = [] ∨ splitlines (s.take n) = splitlines s ∨
      ∃ A p q B, splitlines s = A ++ q :: B ∧
        splitlines (s.take n) = A ++ [p] ∧ p <+: q := by
  induction s using splitlines.induct generalizing n with
  | case1 => left; simp [splitlines]
  | case2 rest ih =>
    match n with
    | 0 => left; simp [splitlines]
    | 1 =>
      right; right
      refine ⟨[], [], [], splitlines rest, by rw [sl_crlf]; simp, ?_, by simp⟩
      rw [show ('\r' :: '\n' :: rest).take 1 = ['\r'] by simp]
      rfl
    | Nat.succ (Nat.succ m) =>
      rw [show ('\r' :: '\n' :: rest).take (m + 2) = '\r' :: '\n' :: rest.take m
        by simp]
      rw [sl_crlf, sl_crlf]
      rcases ih m with h0 | h0 | ⟨A, p, q, B, hs, ht, hpq⟩
      · right; right
        exact ⟨[], [], [], splitlines rest, by simp, by simp [h0], by simp⟩
      · right; left; rw [h0]
      · right; right
        exact ⟨[] :: A, p, q, B, by rw [hs]; rfl, by rw [ht]; rfl, hpq⟩
  | case3 c rest h1 hb ih =>
    match n with
    | 0 => left; simp [splitlines]
    | Nat.succ m =>
      rw [show (c :: rest).take (m + 1) = c :: rest.take m by simp]
      have hpair := pair_cond_of_induct h1
      have hpair2 : ¬(c = '\r' ∧ (rest.take m).head? = some '\n') := by
        rintro ⟨rfl, hh⟩
        exact hpair ⟨rfl, head?_take hh⟩
      rw [sl_break rest hb hpair, sl_break (rest.take m) hb hpair2]
      rcases ih m with h0 | h0 | ⟨A, p, q, B, hs, ht, hpq⟩
      · right; right
        exact ⟨[], [], [], splitlines rest, by simp, by simp [h0], by simp⟩
      · right; left; rw [h0]
      · right; right
        exact ⟨[] :: A, p, q, B, by rw [hs]; rfl, by rw [ht]; rfl, hpq⟩
  | case4 c rest h1 hb ih =>
    have hnb : isLineBreak c = false := by simpa using hb
    match n with
    | 0 => left; simp [splitlines]
    | Nat.succ m =>
      rw [show (c :: rest).take (m + 1) = c :: rest.take m by simp]
      rw [sl_nonbreak rest hnb, sl_nonbreak (rest.take m) hnb]
      rcases ih m with h0 | h0 | ⟨A, p, q, B, hs, ht, hpq⟩
      · rw [h0]
        cases hr : splitlines rest with
        | nil => right; left; rfl
        | cons q B =>
          right; right
          exact ⟨[], [c], c :: q, B, by simp [consFst], by simp [consFst], by simp⟩
      · right; left; rw [h0]
      · rw [hs, ht]
        cases A with
        | nil =>
          right; right
          exact ⟨[], c :: p, c :: q, B, rfl, rfl, by simpa using hpq⟩
        | cons a A2 =>
          right; right
          exact ⟨(c :: a) :: A2, p, q, B, rfl, rfl, hpq⟩

theorem sl_take_mem {s : Str} {n : Nat} {l' : Str}
    (h : l' ∈ splitlines (s.take n)) :
    ∃ l ∈ splitlines s, l' <+: l := by
  rcases sl_take s n with h0 | h0 | ⟨A, p, q, B, hs, ht, hpq⟩
  · rw [h0] at h; simp at h
  · rw [h0] at h; exact ⟨l', h, List.prefix_refl l'⟩
  · rw [ht] at h
    rcases List.mem_append.mp h with hA | hp
    · exact ⟨l', by rw [hs]; exact List.mem_append.mpr (Or.inl hA),
        List.prefix_refl l'⟩
    · have hlp : l' = p := by simpa using hp
      subst hlp
      exact ⟨q, by rw [hs]; simp, hpq⟩

theorem lstrip_cons_space {c : Char} {rest : Str} (h : isPySpace c = true) :
    lstrip (c :: rest) = lstrip rest := by
  unfold lstrip
  rw [List.dropWhile_cons, if_pos (by simp [h])]

theorem pyStrip_cons_space {c : Char} {rest : Str} (h : isPySpace c = true) :
    pyStrip (c :: rest) = pyStrip rest := by
  unfold pyStrip
  rw [lstrip_cons_space h]

/-- Every line of the left-stripped string strips to the same string as
some line of the original. -/
theorem sl_lstrip_mem {s : Str} :
    ∀ l' ∈ splitlines (lstrip s), ∃ l ∈ splitlines s, pyStrip l' = pyStrip l := by
  induction s with
  | nil => intro l' h; simp [lstrip, splitlines] at h
  | cons c rest ih =>
    by_cases hsp : isPySpace c
    · rw [lstrip_cons_space hsp]
      intro l' h
      obtain ⟨l, hl, he⟩ := ih l' h
      by_cases hb : isLineBreak c
      · by_cases hpair : c = '\r' ∧ rest.head? = some '\n'
        · obtain ⟨rfl, hh⟩ := hpair
          cases rest with
          | nil => simp at hh
          | cons d tl =>
            have hd : d = '\n' := by simpa using hh
            subst hd
            rw [sl_crlf]
            rw [sl_break tl (by decide)
              (by rintro ⟨h1, _⟩; exact absurd h1 (by decide))] at hl
            exact ⟨l, hl, he⟩
        · rw [sl_break rest hb hpair]
          exact ⟨l, List.mem_cons_of_mem [] hl, he⟩
      · rw [sl_nonbreak rest (by simpa using hb)]
        cases hsl : splitlines rest with
        | nil => rw [hsl] at hl; simp at hl
        | cons t ts =>
          rw [hsl] at hl
          rcases List.mem_cons.mp hl with rfl | hmem
          · refine ⟨c :: l, by simp [consFst], ?_⟩
            rw [he, pyStrip_cons_space hsp]
          · exact ⟨l, by simp [consFst, hmem], he⟩
    · rw [lstrip_cons_not_space (by simpa using hsp)]
      intro l' h
      exact ⟨l', h, rfl⟩

/-- Append a character to the last line of a line list (opening a new
line when the list is empty). -/
def appLast (L : List Str) (c : Char) : List Str :=
  match L with
  | [] => [[c]]
  | [l] => [l ++ [c]]
  | l :: ls => l :: appLast ls c

/-- Does the string end with a line boundary character? -/
def endsBreak (s : Str) : Bool :=
  match s.getLast? with
  | some c => isLineBreak c
  | none => false

theorem endsBreak_cons {c : Char} {rest : Str} (h : rest ≠ []) :
    endsBreak (c :: rest) = endsBreak rest := by
  unfold endsBreak
  rw [getLast?_cons_ne h]

theorem mem_appLast {L : List Str} {c : Char} {l' : Str}
    (h : l' ∈ appLast L c) :
    l' ∈ L ∨ (∃ l ∈ L, l' = l ++ [c]) ∨ l' = [c] := by
  induction L with
  | nil => simp [appLast] at h; simp [h]
  | cons t ts ih =>
    cases ts with
    | nil =>
      simp [appLast] at h
      exact Or.inr (Or.inl ⟨t, by simp, h⟩)
    | cons u us =>
      rw [show appLast (t :: u :: us) c = t :: appLast (u :: us) c from rfl] at h
      rcases List.mem_cons.mp h with rfl | h2
      · exact Or.inl (by simp)
      · rcases ih h2 with h3 | ⟨l, hl, rfl⟩ | h3
        · exact Or.inl (by simp [h3])
        · exact Or.inr (Or.inl ⟨l, by simp [hl], rfl⟩)
        · exact Or.inr (Or.inr h3)

/-- Appending a non-boundary character appends it to the last line, or
opens a new line when the string ends with a line boundary. -/
theorem sl_append_one {s : Str} {c : Char} (hc : isLineBreak c = false) :
    splitlines (s ++ [c]) =
      if endsBreak s then splitlines s ++ [[c]] else appLast (splitlines s) c := by
  induction s using splitlines.induct with
  | case1 =>
    rw [show (([] : Str) ++ [c]) = [c] from rfl, sl_nonbreak [] hc]
    simp [splitlines, endsBreak, consFst, appLast]
  | case2 rest ih =>
    rw [show ('\r' :: '\n' :: rest) ++ [c] = '\r' :: '\n' :: (rest ++ [c])
      from rfl]
    rw [sl_crlf, sl_crlf, ih]
    cases hrest : rest with
    | nil =>
      have h1 : endsBreak ('\r' :: '\n' :: ([] : Str)) = true := by decide
      rw [h1]
      have h2 : endsBreak ([] : Str) = false := by decide
      rw [h2] at *
      simp [splitlines, appLast]
    | cons d tl =>
      rw [← hrest]
      have hne : rest ≠ [] := by rw [hrest]; simp
      rw [endsBreak_cons (by simp [hrest] : ('\n' :: rest) ≠ []), endsBreak_cons hne]
      by_cases he : endsBreak rest = true
      · rw [he]; rfl
      · rw [Bool.not_eq_true] at he
        rw [he]
        cases hsl : splitlines rest with
        | nil =>
          have : rest = [] := sl_eq_nil.mp hsl
          exact absurd this hne
        | cons t ts => rfl
  | case3 d rest h1 hb ih =>
    have hpair := pair_cond_of_induct h1
    have hpair2 : ¬(d = '\r' ∧ (rest ++ [c]).head? = some '\n') := by
      rintro ⟨rfl, hh⟩
      cases rest with
      | nil =>
        have : c = '\n' := by simpa using hh
        subst this
        exact absurd hc (by decide)
      | cons e tl => exact hpair ⟨rfl, by simpa using hh⟩
    rw [show (d :: rest) ++ [c] = d :: (rest ++ [c]) from rfl]
    rw [sl_break rest hb hpair, sl_break (rest ++ [c]) hb hpair2, ih]
    cases hrest : rest with
    | nil =>
      have h2 : endsBreak [d] = true := by
        unfold endsBreak; simp [hb]
      rw [h2]
      have h3 : endsBreak ([] : Str) = false := by decide
      rw [h3]
      simp [splitlines, appLast]
    | cons e tl =>
      rw [← hrest]
      have hne : rest ≠ [] := by rw [hrest]; simp
      rw [endsBreak_cons hne]
      by_cases he : endsBreak rest = true
      · rw [he]; rfl
      · rw [Bool.not_eq_true] at he
        rw [he]
        cases hsl : splitlines rest with
        | nil => exact absurd (sl_eq_nil.mp hsl) hne
        | cons t ts => rfl
  | case4 d rest h1 hb ih =>
    have hnb : isLineBreak d = false := by simpa using hb
    rw [show (d :: rest) ++ [c] = d :: (rest ++ [c]) from rfl]
    rw [sl_nonbreak rest hnb, sl_nonbreak (rest ++ [c]) hnb, ih]
    cases hrest : rest with
    | nil =>
      have h3 : endsBreak ([] : Str) = false := by decide
      rw [h3]
      have h4 : endsBreak [d] = false := by unfold endsBreak; simp [hnb]
      rw [h4]
      simp [splitlines, appLast, consFst]
    | cons e tl =>
      rw [← hrest]
      have hne : rest ≠ [] := by rw [hrest]; simp
      rw [endsBreak_cons hne]
      by_cases he : endsBreak rest = true
      · rw [he]
        cases hsl : splitlines rest with
        | nil => exact absurd (sl_eq_nil.mp hsl) hne
        | cons t ts => rfl
      · rw [Bool.not_eq_true] at he
        rw [he]
        cases hsl : splitlines rest with
        | nil => exact absurd (sl_eq_nil.mp hsl) hne
        | cons t ts =>
          cases ts with
          | nil => rfl
          | cons u us => rfl

/-! ### Prefix monotonicity of stripping and keepLine transfer -/

theorem dropWhile_suffix_mono {p : Char → Bool} {x y : Str} (h : x <:+ y) :
    x.dropWhile p <:+ y.dropWhile p := by
  obtain ⟨u, rfl⟩ := h
  rw [List.dropWhile_append]
  split
  · exact List.suffix_refl (x.dropWhile p)
  · exact (List.dropWhile_suffix p).trans (List.suffix_append (u.dropWhile p) x)

theorem lstrip_pref_mono {a b : Str} (h : a <+: b) : lstrip a <+: lstrip b := by
  obtain ⟨t, rfl⟩ := h
  unfold lstrip
  rw [List.dropWhile_append]
  split
  · rename_i he
    have h0 : a.dropWhile isPySpace = [] := by simpa using he
    rw [h0]
    exact List.nil_prefix
  · exact List.prefix_append (a.dropWhile isPySpace) t

theorem rstrip_pref_mono {a b : Str} (h : a <+: b) : rstrip a <+: rstrip b := by
  unfold rstrip
  exact List.reverse_prefix.mpr (dropWhile_suffix_mono (List.reverse_suffix.mpr h))

theorem pyStrip_pref_mono {a b : Str} (h : a <+: b) : pyStrip a <+: pyStrip b :=
  rstrip_pref_mono (lstrip_pref_mono h)

theorem isPrefixOf_trans_pref {x u v : Str} (h1 : x.isPrefixOf u = true)
    (h2 : u <+: v) : x.isPrefixOf v = true := by
  rw [List.isPrefixOf_iff_prefix] at h1 ⊢
  exact h1.trans h2

theorem keepLine_iff {l : Str} :
    keepLine l = true ↔
      (str ("--")).isPrefixOf (pyStrip l) = false ∧
        (str ("#")).isPrefixOf (pyStrip l) = false ∧
        tick3.isPrefixOf (pyStrip l) = false := by
  unfold keepLine
  simp only [Bool.not_eq_true', Bool.or_eq_false_iff]
  tauto

theorem keepLine_of_strip_eq {a b : Str} (h : pyStrip a = pyStrip b)
    (hb : keepLine b = true) : keepLine a = true := by
  rw [keepLine_iff] at hb ⊢
  rw [h]
  exact hb

theorem keepLine_pref {a b : Str} (hp : a <+: b) (h : keepLine b = true) :
    keepLine a = true := by
  have hm : pyStrip a <+: pyStrip b := pyStrip_pref_mono hp
  rw [keepLine_iff] at h ⊢
  obtain ⟨h1, h2, h3⟩ := h
  refine ⟨?_, ?_, ?_⟩
  · rw [← Bool.not_eq_true]
    intro hx
    exact absurd (isPrefixOf_trans_pref hx hm) (by simp [h1])
  · rw [← Bool.not_eq_true]
    intro hx
    exact absurd (isPrefixOf_trans_pref hx hm) (by simp [h2])
  · rw [← Bool.not_eq_true]
    intro hx
    exact absurd (isPrefixOf_trans_pref hx hm) (by simp [h3])

theorem tok_pref_rstrip {tok y : Str} (h : tok <+: y)
    (hc : ∀ c ∈ tok, isPySpace c = false) : tok <+: rstrip y := by
  obtain ⟨r, rfl⟩ := h
  cases htok : tok with
  | nil => exact List.nil_prefix
  | cons a tl =>
    rw [← htok, rstrip_append hc]
    exact List.prefix_append tok (rstrip r)

theorem no_tok_pref_append_semi {tok l : Str}
    (hsp : ∀ c ∈ tok, isPySpace c = false) (hns : ';' ∉ tok)
    (h : tok.isPrefixOf (pyStrip l) = false) :
    tok.isPrefixOf (lstrip l ++ [';']) = false := by
  rw [← Bool.not_eq_true]
  intro hx
  rw [List.isPrefixOf_iff_prefix] at hx
  rcases List.prefix_concat_iff.mp hx with hpe | hpa
  · exact hns (by rw [hpe]; simp)
  · have h2 : tok.isPrefixOf (pyStrip l) = true := by
      rw [List.isPrefixOf_iff_prefix]
      exact tok_pref_rstrip hpa hsp
    rw [h2] at h
    exact absurd h (by simp)

theorem keepLine_append_semi {l : Str} (h : keepLine l = true) :
    keepLine (l ++ [';']) = true := by
  rw [keepLine_iff] at h ⊢
  have hstrip : pyStrip (l ++ [';']) = lstrip l ++ [';'] := by
    unfold pyStrip
    rw [show lstrip (l ++ [';']) = lstrip l ++ [';'] by
      unfold lstrip
      rw [List.dropWhile_append]
      split
      · rename_i he
        have : l.dropWhile isPySpace = [] := by simpa using he
        rw [this, List.nil_append]
        rfl
      · rfl]
    apply rstrip_eq_self
    intro c hcl
    have hc : ';' = c := by simpa using hcl
    rw [← hc]
    decide
  rw [hstrip]
  exact ⟨no_tok_pref_append_semi (by decide) (by decide) h.1,
    no_tok_pref_append_semi (by decide) (by decide) h.2.1,
    no_tok_pref_append_semi (by decide) (by decide) h.2.2⟩

/-! ### Structure of the terminator normalization -/

theorem truncAtSemi_struct (sql : Str) :
    (∃ a, truncAtSemi sql = a ++ [';'] ∧ ';' ∉ a ∧ truncAtSemi sql <+: sql) ∨
      (truncAtSemi sql = sql ∧ ';' ∉ sql) := by
  cases hf : pyFind ';' sql with
  | none =>
    right
    constructor
    · unfold truncAtSemi
      rw [hf]
    · exact pyFind_eq_none.mp hf
  | some i =>
    obtain ⟨a, b, rfl, hna, hla⟩ := pyFind_some hf
    left
    have ht : truncAtSemi (a ++ ';' :: b) = a ++ [';'] := by
      unfold truncAtSemi
      rw [hf]
      show List.take (i + 1) (a ++ ';' :: b) = a ++ [';']
      rw [← hla, List.take_append 1]
      simp
    refine ⟨a, ht, hna, ?_⟩
    rw [ht]
    exact ⟨b, by simp⟩

theorem truncAtSemi_pref (sql : Str) : truncAtSemi sql <+: sql := by
  unfold truncAtSemi
  cases pyFind ';' sql with
  | none => exact List.prefix_refl sql
  | some i => exact List.take_prefix (i + 1) sql

theorem ensureSemi_struct (sql : Str) :
    ∃ a, ensureSemi (truncAtSemi sql) = a ++ [';'] ∧ ';' ∉ a ∧
      (ensureSemi (truncAtSemi sql) <+: sql ∨
        ensureSemi (truncAtSemi sql) = sql ++ [';'] ∧ ';' ∉ sql) := by
  rcases truncAtSemi_struct sql with ⟨a, he, hna, hp⟩ | ⟨he, hns⟩
  · refine ⟨a, ?_, hna, Or.inl ?_⟩
    · unfold ensureSemi
      rw [he, if_pos (by simp)]
    · unfold ensureSemi
      rw [he, if_pos (by simp), ← he]
      exact hp
  · unfold ensureSemi
    rw [he]
    have hl : ¬sql.getLast? = some ';' := by
      intro hg
      exact hns (List.mem_of_mem_getLast? hg)
    rw [if_neg hl]
    exact ⟨sql, rfl, hns, Or.inr ⟨rfl, hns⟩⟩

/-- The final strip of _extract_sql (line 49) is the identity: the
string being stripped starts with a non-space character and ends with
the terminator. -/
theorem pyStrip_ensure_trunc (J : Str) :
    pyStrip (ensureSemi (truncAtSemi (pyStrip J))) =
      ensureSemi (truncAtSemi (pyStrip J)) := by
  obtain ⟨a, he, hna, hor⟩ := ensureSemi_struct (pyStrip J)
  rw [he]
  apply pyStrip_eq_self
  · intro c hc
    cases a with
    | nil =>
      have hcs : ';' = c := by simpa using hc
      rw [← hcs]
      decide
    | cons x xs =>
      have hcx : x = c := by simpa using hc
      subst hcx
      rcases hor with hp | ⟨heq, _⟩
      · rw [he] at hp
        exact pyStrip_head_not_space (head?_of_pref hp (by simp))
      · rw [he] at heq
        have hxs : (x :: xs : Str) = pyStrip J := by
          have h2 := congrArg List.dropLast heq
          rw [List.dropLast_concat, List.dropLast_concat] at h2
          exact h2
        exact @pyStrip_head_not_space J x (by rw [← hxs]; simp)
  · intro c hc
    have hcs : ';' = c := by
      rw [List.getLast?_append_of_ne_nil a (by simp)] at hc
      simpa using hc
    rw [← hcs]
    decide

theorem finish_eq_no_strip (cand : Str) :
    finishCandidate cand = ensureSemi (truncAtSemi (preTruncSql cand)) := by
  unfold finishCandidate preTruncSql
  exact pyStrip_ensure_trunc (joinNL ((splitlines cand).filter keepLine))

theorem finish_struct (cand : Str) :
    ∃ a, finishCandidate cand = a ++ [';'] ∧ ';' ∉ a ∧
      (finishCandidate cand <+: preTruncSql cand ∨
        finishCandidate cand = preTruncSql cand ++ [';'] ∧
          ';' ∉ preTruncSql cand) := by
  rw [finish_eq_no_strip]
  exact ensureSemi_struct (preTruncSql cand)

theorem finish_count_last (cand : Str) :
    (finishCandidate cand).count ';' = 1 ∧
      (finishCandidate cand).getLast? = some ';' := by
  obtain ⟨a, he, hna, _⟩ := finish_struct cand
  rw [he]
  constructor
  · rw [List.count_append, List.count_eq_zero.mpr hna]
    simp
  · simp

theorem finish_strip (cand : Str) :
    pyStrip (finishCandidate cand) = finishCandidate cand := by
  unfold finishCandidate
  exact pyStrip_idem _

/-! ### All lines of the sanitizer output survive the line filter -/

theorem keepAll_take {s : Str} (h : ∀ l ∈ splitlines s, keepLine l = true)
    (n : Nat) : ∀ l' ∈ splitlines (s.take n), keepLine l' = true := by
  intro l' hl'
  obtain ⟨l, hl, hp⟩ := sl_take_mem hl'
  exact keepLine_pref hp (h l hl)

theorem keepAll_pref {s s' : Str} (hp : s' <+: s)
    (h : ∀ l ∈ splitlines s, keepLine l = true) :
    ∀ l' ∈ splitlines s', keepLine l' = true := by
  intro l' hl'
  rw [List.prefix_iff_eq_take.mp hp] at hl'
  exact keepAll_take h s'.length l' hl'

theorem keepAll_lstrip {s : Str} (h : ∀ l ∈ splitlines s, keepLine l = true) :
    ∀ l' ∈ splitlines (lstrip s), keepLine l' = true := by
  intro l' hl'
  obtain ⟨l, hl, he⟩ := sl_lstrip_mem l' hl'
  exact keepLine_of_strip_eq he (h l hl)

theorem keepAll_pyStrip {s : Str} (h : ∀ l ∈ splitlines s, keepLine l = true) :
    ∀ l' ∈ splitlines (pyStrip s), keepLine l' = true := by
  unfold pyStrip
  exact keepAll_pref (rstrip_pref (lstrip s)) (keepAll_lstrip h)

theorem keepAll_append_semi {s : Str}
    (h : ∀ l ∈ splitlines s, keepLine l = true) :
    ∀ l' ∈ splitlines (s ++ [';']), keepLine l' = true := by
  intro l' hl'
  rw [sl_append_one (by decide)] at hl'
  split at hl'
  · rcases List.mem_append.mp hl' with h1 | h1
    · exact h l' h1
    · have he : l' = [';'] := by simpa using h1
      rw [he]
      decide
  · rcases mem_appLast hl' with h1 | ⟨l, hl, rfl⟩ | h1
    · exact h l' h1
    · exact keepLine_append_semi (h l hl)
    · rw [h1]
      decide

theorem keepAll_ensureSemi {s : Str}
    (h : ∀ l ∈ splitlines s, keepLine l = true) :
    ∀ l' ∈ splitlines (ensureSemi s), keepLine l' = true := by
  unfold ensureSemi
  split
  · exact h
  · exact keepAll_append_semi h

/-- Every line of the sanitizer output passes the comment filter. -/
theorem out_keepAll (cand : Str) :
    ∀ l ∈ splitlines (finishCandidate cand), keepLine l = true := by
  rw [finish_eq_no_strip]
  have hK : ∀ l ∈ (splitlines cand).filter keepLine, keepLine l = true := by
    intro l hl
    exact (List.mem_filter.mp hl).2
  have hbf : ∀ l ∈ (splitlines cand).filter keepLine,
      ∀ c ∈ l, isLineBreak c = false := by
    intro l hl
    exact sl_no_break l (List.mem_filter.mp hl).1
  have step1 : ∀ l ∈ splitlines (joinNL ((splitlines cand).filter keepLine)),
      keepLine l = true :=
    fun l hl => hK l (keepAll_joinNL hbf hl)
  have step2 := keepAll_pyStrip step1
  exact keepAll_ensureSemi (keepAll_pref (truncAtSemi_pref _) step2)

/-! ### Characters of the sanitizer output -/

theorem mem_joinNL {K : List Str} {c : Char} (h : c ∈ joinNL K) :
    c = '\n' ∨ ∃ l ∈ K, c ∈ l := by
  induction K with
  | nil => simp [joinNL] at h
  | cons l ls ih =>
    cases ls with
    | nil => exact Or.inr ⟨l, by simp, by simpa [joinNL] using h⟩
    | cons m ms =>
      rw [show joinNL (l :: m :: ms) = l ++ '\n' :: joinNL (m :: ms) from rfl]
        at h
      rcases List.mem_append.mp h with h1 | h1
      · exact Or.inr ⟨l, by simp, h1⟩
      · rcases List.mem_cons.mp h1 with rfl | h2
        · exact Or.inl rfl
        · rcases ih h2 with h3 | ⟨t, ht, hc⟩
          · exact Or.inl h3
          · exact Or.inr ⟨t, by simp [ht], hc⟩

theorem mem_pyStrip_sub {s : Str} {c : Char} (h : c ∈ pyStrip s) : c ∈ s := by
  have h1 := (rstrip_pref (lstrip s)).subset h
  exact (List.dropWhile_suffix isPySpace).subset h1

/-- The only line boundary character the sanitizer output can contain is
the plain newline inserted by the join. -/
theorem out_breaks (cand : Str) :
    ∀ c ∈ finishCandidate cand, isLineBreak c = true → c = '\n' := by
  rw [finish_eq_no_strip]
  intro c hc hbc
  have hsub : c ∈ preTruncSql cand ∨ c = ';' := by
    revert hc
    unfold ensureSemi
    split
    · intro hc
      exact Or.inl ((truncAtSemi_pref _).subset hc)
    · intro hc
      rcases List.mem_append.mp hc with h1 | h1
      · exact Or.inl ((truncAtSemi_pref _).subset h1)
      · exact Or.inr (by simpa using h1)
  rcases hsub with h1 | rfl
  · unfold preTruncSql at h1
    have h2 := mem_pyStrip_sub h1
    rcases mem_joinNL h2 with h3 | ⟨l, hl, hcl⟩
    · exact h3
    · have := sl_no_break l (List.mem_filter.mp hl).1 c hcl
      rw [this] at hbc
      exact absurd hbc (by simp)
  · exact absurd hbc (by decide)

/-! ### Fixed point property of the terminator-normalized form -/

theorem finish_fix {s : Str}
    (hkeep : ∀ l ∈ splitlines s, keepLine l = true)
    (hbr : ∀ c ∈ s, isLineBreak c = true → c = '\n')
    (hstrip : pyStrip s = s)
    {a : Str} (hdec : s = a ++ [';']) (hna : ';' ∉ a) :
    finishCandidate s = s := by
  unfold finishCandidate
  have h1 : (splitlines s).filter keepLine = splitlines s :=
    List.filter_eq_self.mpr hkeep
  have h2 : joinNL (splitlines s) = s := by
    apply joinNL_splitlines hbr
    rw [hdec]
    simp
  have h3 : preTruncSql s = s := by
    unfold preTruncSql
    rw [h1, h2, hstrip]
  rw [h3]
  have h4 : truncAtSemi s = s := by
    rw [hdec]
    unfold truncAtSemi
    rw [pyFind_first hna]
    show List.take (a.length + 1) (a ++ [';']) = a ++ [';']
    rw [List.take_of_length_le (by simp)]
  rw [h4]
  have h5 : ensureSemi s = s := by
    unfold ensureSemi
    rw [if_pos (by rw [hdec]; simp)]
  rw [h5, hstrip]

/-- The sanitizer output is a fixed point of the line-filtering and
terminator-normalization pipeline. -/
theorem finish_finish (cand : Str) :
    finishCandidate (finishCandidate cand) = finishCandidate cand := by
  obtain ⟨a, he, hna, _⟩ := finish_struct cand
  exact finish_fix (out_keepAll cand) (out_breaks cand) (finish_strip cand)
    he hna

/-! ### Fence search lemmas -/

theorem findTick3_cons (a : Char) (tl : Str) :
    findTick3 (a :: tl) =
      if tick3.isPrefixOf (a :: tl) then some 0
      else (findTick3 tl).map (· + 1) := rfl

theorem fenceSearch_cons (c : Char) (tl : Str) :
    fenceSearch (c :: tl) =
      match fenceAt (c :: tl) with
      | some r => some r
      | none => fenceSearch tl := rfl

theorem take_append_congr (k : Nat) (m A B : Str)
    (h : A.take (k - m.length) = B.take (k - m.length)) :
    (m ++ A).take k = (m ++ B).take k := by
  induction m generalizing k with
  | nil => simpa using h
  | cons c m' ih =>
    cases k with
    | zero => simp
    | succ j =>
      simp only [List.cons_append, List.take_succ_cons]
      rw [ih j (by simpa [Nat.succ_sub_succ] using h)]

theorem tick3_isPrefixOf_iff {s : Str} :
    tick3.isPrefixOf s = true ↔ tick3 = s.take 3 := by
  rw [List.isPrefixOf_iff_prefix, List.prefix_iff_eq_take]
  rw [show tick3.length = 3 from rfl]

theorem tick_take_agree (post : Str) :
    ∀ n, n ≤ 2 → (tick3 ++ post).take n = [tickC, tickC].take n := by
  intro n hn
  match n, hn with
  | 0, _ => rfl
  | 1, _ => rfl
  | 2, _ => rfl

theorem findTick3_none_cons {a : Char} {tl : Str}
    (h : findTick3 (a :: tl) = none) :
    tick3.isPrefixOf (a :: tl) = false ∧ findTick3 tl = none := by
  rw [findTick3_cons] at h
  by_cases hp : tick3.isPrefixOf (a :: tl) = true
  · rw [if_pos hp] at h
    exact absurd h (by simp)
  · rw [if_neg hp] at h
    refine ⟨Bool.eq_false_iff.mpr hp, ?_⟩
    cases hf : findTick3 tl with
    | none => rfl
    | some k => rw [hf] at h; simp at h

/-- A backtick run that starts no earlier occurrence turns the first
occurrence of the closing fence into an exact position. -/
theorem findTick3_fence {mid : Str} (post : Str)
    (hmid : findTick3 (mid ++ [tickC, tickC]) = none) :
    findTick3 (mid ++ (tick3 ++ post)) = some mid.length := by
  induction mid with
  | nil =>
    rw [List.nil_append]
    cases post with
    | nil =>
      rw [show tick3 ++ ([] : Str) = tickC :: tickC :: [tickC] from rfl]
      rw [findTick3_cons, if_pos (by decide)]
      rfl
    | cons d tl =>
      rw [show tick3 ++ (d :: tl) = tickC :: tickC :: tickC :: d :: tl from rfl]
      rw [findTick3_cons]
      rw [if_pos (by
        rw [List.isPrefixOf_iff_prefix]
        exact ⟨d :: tl, rfl⟩)]
      rfl
  | cons c mid' ih =>
    rw [List.cons_append] at hmid
    obtain ⟨hnp, hrest⟩ := findTick3_none_cons hmid
    have hnp2 : tick3.isPrefixOf (c :: (mid' ++ (tick3 ++ post))) = false := by
      rw [← Bool.not_eq_true, tick3_isPrefixOf_iff]
      intro hEq
      have hcongr : ((c :: mid') ++ (tick3 ++ post)).take 3 =
          ((c :: mid') ++ [tickC, tickC]).take 3 := by
        apply take_append_congr
        exact tick_take_agree post _ (by simp)
      rw [List.cons_append] at hcongr
      rw [hcongr] at hEq
      rw [← tick3_isPrefixOf_iff] at hEq
      rw [List.cons_append] at hEq
      rw [hEq] at hnp
      exact absurd hnp (by simp)
    rw [List.cons_append, findTick3_cons, if_neg (by simp [hnp2]), ih hrest]
    rfl

theorem fenceAt_none_of_no_tick {s : Str} (h : tick3.isPrefixOf s = false) :
    fenceAt s = none := by
  unfold fenceAt
  rw [if_neg (by simp [h])]

theorem fenceSearch_skip {pre R : Str}
    (hpre : findTick3 (pre ++ [tickC, tickC]) = none)
    (hR : tick3.isPrefixOf R = true) :
    fenceSearch (pre ++ R) = fenceSearch R := by
  obtain ⟨R', rfl⟩ : ∃ R', R = tick3 ++ R' := by
    rw [List.isPrefixOf_iff_prefix] at hR
    obtain ⟨t, ht⟩ := hR
    exact ⟨t, ht.symm⟩
  induction pre with
  | nil => simp
  | cons c pre' ih =>
    rw [List.cons_append] at hpre
    obtain ⟨hnp, hrest⟩ := findTick3_none_cons hpre
    have hnp2 : tick3.isPrefixOf (c :: (pre' ++ (tick3 ++ R'))) = false := by
      rw [← Bool.not_eq_true, tick3_isPrefixOf_iff]
      intro hEq
      have hcongr : ((c :: pre') ++ (tick3 ++ R')).take 3 =
          ((c :: pre') ++ [tickC, tickC]).take 3 := by
        apply take_append_congr
        exact tick_take_agree R' _ (by simp)
      rw [List.cons_append] at hcongr
      rw [hcongr] at hEq
      rw [← tick3_isPrefixOf_iff] at hEq
      rw [List.cons_append] at hEq
      rw [hEq] at hnp
      exact absurd hnp (by simp)
    rw [List.cons_append, fenceSearch_cons, fenceAt_none_of_no_tick hnp2]
    exact ih hrest

/-- Anchored fence match at the opening fence of a well-formed block. -/
theorem fenceAt_fence {tag mid post : Str}
    (htag : tag = [] ∨ tag.map asciiLower = str ("sql"))
    (hmid : findTick3 (mid ++ [tickC, tickC]) = none)
    (hsql : tag = [] → ciPref (str ("sql")) (mid ++ (tick3 ++ post)) = false) :
    fenceAt (tick3 ++ (tag ++ (mid ++ (tick3 ++ post)))) = some mid := by
  unfold fenceAt
  rw [if_pos (by
    rw [List.isPrefixOf_iff_prefix]
    exact ⟨tag ++ (mid ++ (tick3 ++ post)), rfl⟩)]
  have hdrop : (tick3 ++ (tag ++ (mid ++ (tick3 ++ post)))).drop 3 =
      tag ++ (mid ++ (tick3 ++ post)) := by
    rw [show (3 : Nat) = tick3.length from rfl, List.drop_left]
  rw [hdrop]
  rcases htag with rfl | htag3
  · rw [List.nil_append]
    rw [if_neg (by simp [hsql rfl])]
    rw [findTick3_fence post hmid]
    simp [List.take_left]
  · have hlen : tag.length = 3 := by
      have := congrArg List.length htag3
      simpa using this
    rw [if_pos (by
      unfold ciPref
      rw [show (str ("sql")).length = 3 from rfl]
      rw [← hlen, List.take_left]
      simp [htag3])]
    rw [show tag ++ (mid ++ (tick3 ++ post)) =
      tag ++ (mid ++ (tick3 ++ post)) from rfl]
    rw [← hlen, List.drop_left]
    rw [findTick3_fence post hmid]
    simp [List.take_left]

/-- Leftmost fence search on a text with a single well-formed fenced
block returns exactly the block interior. -/
theorem fenceSearch_fence {pre tag mid post : Str}
    (htag : tag = [] ∨ tag.map asciiLower = str ("sql"))
    (hpre : findTick3 (pre ++ [tickC, tickC]) = none)
    (hmid : findTick3 (mid ++ [tickC, tickC]) = none)
    (hsql : tag = [] → ciPref (str ("sql")) (mid ++ (tick3 ++ post)) = false) :
    fenceSearch (pre ++ (tick3 ++ (tag ++ (mid ++ (tick3 ++ post))))) =
      some mid := by
  rw [fenceSearch_skip hpre (by
    rw [List.isPrefixOf_iff_prefix]
    exact ⟨tag ++ (mid ++ (tick3 ++ post)), rfl⟩)]
  cases hF : tick3 ++ (tag ++ (mid ++ (tick3 ++ post))) with
  | nil => exact absurd hF (by simp [tick3])
  | cons c tl =>
    rw [fenceSearch_cons, ← hF, fenceAt_fence htag hmid hsql]

/-! ### Keyword search lemmas -/

theorem kwSearchGo_spec {prev : Option Char} {s : Str} {p : Nat}
    (h : kwSearchGo prev s = some p) : kwMatchAt (s.drop p) = true := by
  induction s generalizing prev p with
  | nil => simp [kwSearchGo] at h
  | cons c tl ih =>
    rw [show kwSearchGo prev (c :: tl) =
      if prevNonWord prev && kwMatchAt (c :: tl) then some 0
      else (kwSearchGo (some c) tl).map (· + 1) from rfl] at h
    split at h
    · rename_i hcond
      have hp0 : (0 : Nat) = p := by simpa using h
      subst hp0
      exact (Bool.and_eq_true _ _ |>.mp hcond).2
    · obtain ⟨j, hj, rfl⟩ := Option.map_eq_some'.mp h
      rw [show (c :: tl).drop (j + 1) = tl.drop j from rfl]
      exact ih hj

theorem kwSearch_spec {t : Str} {p : Nat} (h : kwSearch t = some p) :
    kwMatchAt (t.drop p) = true := kwSearchGo_spec h

/-- The length of the keyword matched at the front of the candidate. -/
def kwLenAt (s : Str) : Nat := if ciPref (str ("select")) s then 6 else 4

theorem kwMatchAt_front {s : Str} (h : kwMatchAt s = true) :
    kwLenAt s ≤ s.length ∧ ∀ c ∈ s.take (kwLenAt s), isAsciiLetter c = true := by
  have hlet : (∀ x ∈ str ("select"), isAsciiLetter x = true) ∧
      (∀ x ∈ str ("with"), isAsciiLetter x = true) := by decide
  unfold kwMatchAt at h
  rcases Bool.or_eq_true _ _ |>.mp h with h1 | h1
  · have hci := (Bool.and_eq_true _ _ |>.mp h1).1
    have hLen : kwLenAt s = 6 := by
      unfold kwLenAt
      rw [if_pos hci]
    have hsel : (s.take 6).map asciiLower = str ("select") := by
      unfold ciPref at hci
      simpa using of_decide_eq_true hci
    have h6 : (6 : Nat) ≤ s.length := by
      have hmin := congrArg List.length hsel
      rw [show (str ("select")).length = 6 from rfl] at hmin
      simp at hmin
      exact hmin
    rw [hLen]
    refine ⟨h6, ?_⟩
    intro c hc
    have hx : asciiLower c ∈ str ("select") := by
      rw [← hsel]
      exact List.mem_map_of_mem asciiLower hc
    exact letter_of_lower (hlet.1 (asciiLower c) hx) rfl
  · have hci := (Bool.and_eq_true _ _ |>.mp h1).1
    have hwith : (s.take 4).map asciiLower = str ("with") := by
      unfold ciPref at hci
      simpa using of_decide_eq_true hci
    have hnotsel : ciPref (str ("select")) s = false := by
      unfold ciPref
      rw [decide_eq_false_iff_not]
      intro hsel
      rw [show (str ("select")).length = 6 from rfl] at hsel
      have h4 : s.take 4 = (s.take 6).take 4 := by
        rw [List.take_take]
        norm_num
      have hw4 := hwith
      rw [h4, List.map_take, hsel] at hw4
      exact absurd hw4 (by decide)
    have hLen : kwLenAt s = 4 := by
      unfold kwLenAt
      rw [if_neg (by simp [hnotsel])]
    have h4 : (4 : Nat) ≤ s.length := by
      have hmin := congrArg List.length hwith
      rw [show (str ("with")).length = 4 from rfl] at hmin
      simp at hmin
      exact hmin
    rw [hLen]
    refine ⟨h4, ?_⟩
    intro c hc
    have hx : asciiLower c ∈ str ("with") := by
      rw [← hwith]
      exact List.mem_map_of_mem asciiLower hc
    exact letter_of_lower (hlet.2 (asciiLower c) hx) rfl

/-! ### The sanitizer preserves a leading run of letters -/

theorem isPrefixOf_cons_ne {x c : Char} {ts s : Str} (h : x ≠ c) :
    (x :: ts).isPrefixOf (c :: s) = false := by
  rw [← Bool.not_eq_true, List.isPrefixOf_iff_prefix, List.cons_prefix_cons]
  rintro ⟨rfl, -⟩
  exact h rfl

theorem keepLine_letter_head {w X : Str} (hw : w ≠ [])
    (hl : ∀ c ∈ w, isAsciiLetter c = true) : keepLine (w ++ X) = true := by
  have hsp : ∀ c ∈ w, isPySpace c = false :=
    fun c hc => (letter_props (hl c hc)).1
  rw [keepLine_iff, pyStrip_append_letters hsp hw]
  cases w with
  | nil => exact absurd rfl hw
  | cons c0 w' =>
    obtain ⟨-, -, -, hd, hh, ht⟩ := letter_props (hl c0 (by simp))
    rw [List.cons_append]
    exact ⟨isPrefixOf_cons_ne (by simpa using Ne.symm hd),
      isPrefixOf_cons_ne (by simpa using Ne.symm hh),
      isPrefixOf_cons_ne (by simpa using Ne.symm ht)⟩

/-- splitlines of a string with a break-free nonempty front w: the front
is glued onto the first line of the rest. -/
theorem sl_front {w : Str} (r : Str) (hw : w ≠ [])
    (hbf : ∀ c ∈ w, isLineBreak c = false) :
    (splitlines r = [] ∧ splitlines (w ++ r) = [w]) ∨
      (∃ l ls, splitlines r = l :: ls ∧ splitlines (w ++ r) = (w ++ l) :: ls) := by
  induction w with
  | nil => exact absurd rfl hw
  | cons c w' ih =>
    by_cases hw' : w' = []
    · subst hw'
      rw [show ([c] : Str) ++ r = c :: r from rfl, sl_nonbreak r (hbf c (by simp))]
      cases hr : splitlines r with
      | nil => exact Or.inl ⟨rfl, rfl⟩
      | cons l ls => exact Or.inr ⟨l, ls, rfl, rfl⟩
    · have hbf' : ∀ c ∈ w', isLineBreak c = false :=
        fun d hd => hbf d (by simp [hd])
      rw [List.cons_append, sl_nonbreak (w' ++ r) (hbf c (by simp))]
      rcases ih hw' hbf' with ⟨hr, hwr⟩ | ⟨l, ls, hr, hwr⟩
      · rw [hwr]
        exact Or.inl ⟨hr, rfl⟩
      · rw [hwr]
        exact Or.inr ⟨l, ls, hr, rfl⟩

/-- The full sanitizer pipeline keeps a leading nonempty run of ASCII
letters of the candidate at the front of its output. -/
theorem finish_front {w : Str} (r : Str) (hw : w ≠ [])
    (hl : ∀ c ∈ w, isAsciiLetter c = true) :
    ∃ z, finishCandidate (w ++ r) = w ++ z := by
  have hsp : ∀ c ∈ w, isPySpace c = false :=
    fun c hc => (letter_props (hl c hc)).1
  have hbf : ∀ c ∈ w, isLineBreak c = false :=
    fun c hc => (letter_props (hl c hc)).2.1
  have hns : ';' ∉ w := by
    intro hmem
    exact (letter_props (hl ';' hmem)).2.2.1 rfl
  have hpre : ∃ X, preTruncSql (w ++ r) = w ++ X := by
    unfold preTruncSql
    rcases sl_front r hw hbf with ⟨hr, hwr⟩ | ⟨l, ls, hr, hwr⟩
    · rw [hwr]
      rw [show List.filter keepLine [w] = [w] by
        rw [List.filter_eq_self]
        intro a ha
        have haw : a = w := by simpa using ha
        rw [haw]
        have := keepLine_letter_head hw hl (X := [])
        simpa using this]
      rw [show joinNL [w] = w from rfl]
      exact ⟨[], by rw [pyStrip_eq_self
        (fun c hc => hsp c (List.mem_of_mem_head? hc))
        (fun c hc => hsp c (List.mem_of_mem_getLast? hc))]; simp⟩
    · rw [hwr]
      rw [show List.filter keepLine ((w ++ l) :: ls) =
          (w ++ l) :: List.filter keepLine ls by
        rw [List.filter_cons_of_pos]
        exact keepLine_letter_head hw hl]
      cases hfl : List.filter keepLine ls with
      | nil =>
        rw [show joinNL [w ++ l] = w ++ l from rfl]
        rw [pyStrip_append_letters hsp hw]
        exact ⟨rstrip l, rfl⟩
      | cons m ms =>
        rw [joinNL_cons (by simp)]
        rw [List.append_assoc]
        rw [pyStrip_append_letters hsp hw]
        exact ⟨_, rfl⟩
  obtain ⟨X, hX⟩ := hpre
  rw [finish_eq_no_strip, hX]
  have htr : ∃ Y, truncAtSemi (w ++ X) = w ++ Y := by
    unfold truncAtSemi
    rw [pyFind_append_none hns]
    cases hf : pyFind ';' X with
    | none => exact ⟨X, rfl⟩
    | some j =>
      refine ⟨X.take (j + 1), ?_⟩
      show (w ++ X).take (j + w.length + 1) = w ++ X.take (j + 1)
      rw [show j + w.length + 1 = w.length + (j + 1) by omega]
      rw [List.take_append]
  obtain ⟨Y, hY⟩ := htr
  rw [hY]
  unfold ensureSemi
  split
  · exact ⟨Y, rfl⟩
  · exact ⟨Y ++ [';'], by rw [List.append_assoc]⟩

/-! ### Model of get_schema_text (llm_text2sql.py lines 11-26) -/

/-- Model of get_schema_text.  The argument models the outcome of the
catalog introspection inside the try block: none is a connect or query
failure (the except branch runs), some gives every table of the catalog
with its column names in declaration order. -/
def get_schema_text (db : Option (List (String × List String))) : String :=
  match db with
  | some tables =>
    let parts := tables.map
      (fun tc => tc.1 ++ ("(") ++ String.intercalate (", ") tc.2 ++ (")"))
    if parts.isEmpty then ("(no schema read)")
    else String.intercalate ("
") parts
  | none =>
    ("(schema unavailable; valid Chinook tables include invoices, customers, invoice_items, tracks, albums, artists, genres)")

/-! ### Model of run_sql_query (query_executor.py lines 5-14) -/

/-- Tabular result set: the pandas DataFrame that read_sql_query
materializes (ordered columns, ordered rows). -/
structure DataFrame where
  cols : List String
  rows : List (List String)

/-- Return channel of run_sql_query: success and failure share it,
distinguished only by the constructor (in Python, by the runtime type of
the returned value). -/
inductive SqlResult where
  | table : DataFrame → SqlResult
  | errorMsg : String → SqlResult

/-- Model of run_sql_query.  The engine argument models opening the
connection and executing the statement: any exception raised inside the
try block is an error value. -/
def run_sql_query (engine : String → Except String DataFrame)
    (sql_query : String) : SqlResult :=
  match engine sql_query with
  | Except.ok df => SqlResult.table df
  | Except.error e => SqlResult.errorMsg (("Error executing SQL: ") ++ e)

/-! ### Model of graph_utils.py -/

/-- Shape and dtype information of a DataFrame, as inspected by
decide_chart_type: row count and the dtype kind character of each column
in order. -/
structure DFInfo where
  nrows : Nat
  colKinds : List Char

/-- Numeric dtype kinds: the test kind in "iufc". -/
def numericKind (k : Char) : Bool :=
  decide (k ∈ (['i', 'u', 'f', 'c'] : List Char))

/-- Model of decide_chart_type (graph_utils.py lines 18-53). -/
def decide_chart_type (user_query : Str) (df : Option DFInfo) : Option String :=
  let q := user_query.map asciiLower
  if [str ("trend"), str ("over time"), str ("line chart"), str ("month"),
      str ("year")].any (fun k => decide (k <:+: q)) then some ("line")
  else if [str ("percentage"), str ("distribution"), str ("share"),
      str ("pie")].any (fun k => decide (k <:+: q)) then some ("pie")
  else if [str ("top"), str ("compare"), str ("vs"), str ("bar")].any
      (fun k => decide (k <:+: q)) then some ("bar")
  else
    match df with
    | some d =>
      if 2 ≤ d.colKinds.length then
        let xk := d.colKinds.getD 0 (' ')
        let yk := d.colKinds.getD 1 (' ')
        if numericKind yk && !numericKind xk then some ("bar")
        else if numericKind yk && numericKind xk then some ("line")
        else if d.nrows ≤ 6 then some ("pie")
        else none
      else none
    | none => none

/-! ### Claim theorems -/

/-- C1: for every raw text containing a single fenced code block
(optionally tagged sql, case-insensitively), _extract_sql returns
exactly the fenced interior after trimming, comment-line removal and
terminator normalization (finishCandidate of the interior); and in
particular the raw text consisting of an sql-tagged fence around
SELECT 1; sanitizes to exactly SELECT 1;. -/
theorem c1_fenced_block (pre tag mid post : Str)
    (htag : tag = [] ∨ tag.map asciiLower = str ("sql"))
    (hpre : findTick3 (pre ++ [tickC, tickC]) = none)
    (hmid : findTick3 (mid ++ [tickC, tickC]) = none)
    (hsql : tag = [] → ciPref (str ("sql")) (mid ++ (tick3 ++ post)) = false) :
    _extract_sql (pre ++ (tick3 ++ (tag ++ (mid ++ (tick3 ++ post))))) =
        finishCandidate mid ∧
      _extract_sql (str ("\x60\x60\x60sql\nSELECT 1;\n\x60\x60\x60")) =
        str ("SELECT 1;") := by
  constructor
  · unfold _extract_sql candidateOf
    rw [fenceSearch_fence htag hpre hmid hsql]
  · decide

theorem c1_witness :
    _extract_sql ((str ("x: ")) ++ (tick3 ++ ((str ("sql")) ++
        ((str ("\nSELECT 1;\n")) ++ (tick3 ++ (str (" done"))))))) =
      finishCandidate (str ("\nSELECT 1;\n")) :=
  (c1_fenced_block (str ("x: ")) (str ("sql")) (str ("\nSELECT 1;\n"))
    (str (" done")) (Or.inr (by decide)) (by decide) (by decide)
    (fun h => absurd h (by decide))).1

/-- C2: for every input string, the sanitizer output contains the
statement terminator exactly once, and it is the final character. -/
theorem c2_terminator (text : Str) :
    (_extract_sql text).count ';' = 1 ∧
      (_extract_sql text).getLast? = some ';' := by
  unfold _extract_sql
  exact finish_count_last (candidateOf text)

theorem c2_witness :
    (_extract_sql (str ("SELECT 1"))).count ';' = 1 ∧
      (_extract_sql (str ("SELECT 1"))).getLast? = some ';' :=
  c2_terminator (str ("SELECT 1"))

/-- C3: when the comment-stripped candidate splits as a first statement
followed by the terminator and arbitrary further content, the sanitizer
returns exactly the first statement with its terminator: everything
after the first terminator is discarded. -/
theorem c3_first_statement (text : Str) (a b : Str)
    (h : preTruncSql (candidateOf text) = a ++ ';' :: b)
    (hna : ';' ∉ a) :
    _extract_sql text = a ++ [';'] := by
  unfold _extract_sql finishCandidate
  have ht : truncAtSemi (preTruncSql (candidateOf text)) = a ++ [';'] := by
    unfold truncAtSemi
    rw [h, pyFind_first hna]
    show (a ++ ';' :: b).take (a.length + 1) = a ++ [';']
    rw [List.take_append 1]
    simp
  rw [ht]
  have he : ensureSemi (a ++ [';']) = a ++ [';'] := by
    unfold ensureSemi
    rw [if_pos (by simp)]
  rw [he]
  apply pyStrip_eq_self
  · intro c hc
    cases a with
    | nil =>
      have hcs : ';' = c := by simpa using hc
      rw [← hcs]
      decide
    | cons x xs =>
      have hcx : x = c := by simpa using hc
      subst hcx
      have hhead : (preTruncSql (candidateOf text)).head? = some x := by
        rw [h]
        simp
      unfold preTruncSql at hhead
      exact pyStrip_head_not_space hhead
  · intro c hc
    have hcs : ';' = c := by
      rw [List.getLast?_append_of_ne_nil a (by simp)] at hc
      simpa using hc
    rw [← hcs]
    decide

theorem c3_witness :
    _extract_sql (str ("SELECT 1; DROP TABLE t;")) = (str ("SELECT 1")) ++ [';'] :=
  c3_first_statement (str ("SELECT 1; DROP TABLE t;")) (str ("SELECT 1"))
    (str (" DROP TABLE t;")) (by decide) (by decide)

/-- C4 counterexample: this raw text has no fenced block and contains
the whole-word keyword SELECT at position 9 (space before, space after),
yet the sanitizer output starts at the earlier whole-word with keyword:
its first six characters differ from the SELECT occurrence. -/
theorem c4_counterexample :
    fenceSearch (str ("use with select 1")) = none ∧
      ciPref (str ("select")) ((str ("use with select 1")).drop 9) = true ∧
      isWordChar ((str ("use with select 1")).getD 8 (' ')) = false ∧
      boundaryAfter ((str ("use with select 1")).drop 15) = true ∧
      _extract_sql (str ("use with select 1")) = str ("with select 1;") ∧
      (_extract_sql (str ("use with select 1"))).take 6 ≠
        ((str ("use with select 1")).drop 9).take 6 := by
  decide

/-- C4 amended: for ASCII raw text with no fenced block on which the
keyword search (first case-insensitive whole-word select or with
occurrence) anchors at position p, the sanitizer processes exactly the
suffix of the text from p, and its output starts with the matched
keyword occurrence; output starts at the SELECT keyword only when no
whole-word with occurs before it.  The ASCII hypothesis scopes the
statement to inputs on which the embedded word-boundary class coincides
with Python's Unicode-aware one (the regex word class is modelled at
the ASCII level only). -/
theorem c4_amended (text : Str) (p : Nat)
    (_hascii : ∀ c ∈ text, c.toNat < 128)
    (hf : fenceSearch text = none) (hk : kwSearch text = some p) :
    _extract_sql text = finishCandidate (text.drop p) ∧
      (_extract_sql text).take (kwLenAt (text.drop p)) =
        (text.drop p).take (kwLenAt (text.drop p)) := by
  have h1 : _extract_sql text = finishCandidate (text.drop p) := by
    unfold _extract_sql candidateOf
    rw [hf, hk]
  refine ⟨h1, ?_⟩
  obtain ⟨hle, hlets⟩ := kwMatchAt_front (kwSearch_spec hk)
  have hLpos : 0 < kwLenAt (text.drop p) := by
    unfold kwLenAt
    split <;> norm_num
  have hlen2 : ((text.drop p).take (kwLenAt (text.drop p))).length =
      kwLenAt (text.drop p) := by
    rw [List.length_take]
    omega
  have hwne : (text.drop p).take (kwLenAt (text.drop p)) ≠ [] := by
    intro hnil
    rw [hnil] at hlen2
    simp at hlen2
    omega
  obtain ⟨z, hz⟩ := finish_front ((text.drop p).drop (kwLenAt (text.drop p)))
    hwne hlets
  rw [List.take_append_drop] at hz
  rw [h1, hz]
  have htl := List.take_left ((text.drop p).take (kwLenAt (text.drop p))) z
  rw [hlen2] at htl
  exact htl

theorem c4_amended_witness :
    _extract_sql (str ("say select 1")) =
        finishCandidate ((str ("say select 1")).drop 4) ∧
      (_extract_sql (str ("say select 1"))).take
          (kwLenAt ((str ("say select 1")).drop 4)) =
        ((str ("say select 1")).drop 4).take
          (kwLenAt ((str ("say select 1")).drop 4)) :=
  c4_amended (str ("say select 1")) 4 (by decide) (by decide) (by decide)

/-- C5 counterexample: sanitizing this fenced raw text yields a string
whose interior contains a whole-word select, so a second application
re-anchors at that keyword and produces a different, shorter string:
the sanitizer is not idempotent. -/
theorem c5_counterexample :
    _extract_sql (str ("\x60\x60\x60\nGive me select 1;\n\x60\x60\x60")) =
        str ("Give me select 1;") ∧
      _extract_sql (_extract_sql
          (str ("\x60\x60\x60\nGive me select 1;\n\x60\x60\x60"))) =
        str ("select 1;") ∧
      _extract_sql (_extract_sql
          (str ("\x60\x60\x60\nGive me select 1;\n\x60\x60\x60"))) ≠
        _extract_sql (str ("\x60\x60\x60\nGive me select 1;\n\x60\x60\x60")) := by
  refine ⟨by decide, by decide, ?_⟩
  decide

/-- C5 amended: for ASCII input, applying the sanitizer to its own
output returns the output unchanged whenever candidate selection maps
that output to itself, namely when the output contains no fence match
and the keyword search finds nothing or re-anchors at position 0; in
particular already-clean SQL that starts with the select keyword is a
fixed point.  Full idempotence fails (see the counterexample) because a
second pass may re-anchor at a keyword strictly inside the first
output.  The ASCII hypothesis scopes the statement to inputs on which
the embedded word-boundary class used by the keyword search coincides
with Python's Unicode-aware one. -/
theorem c5_amended (t : Str)
    (_hascii : ∀ c ∈ t, c.toNat < 128)
    (hf : fenceSearch (_extract_sql t) = none)
    (hk : kwSearch (_extract_sql t) = none ∨
      kwSearch (_extract_sql t) = some 0) :
    _extract_sql (_extract_sql t) = _extract_sql t := by
  have hcand : candidateOf (_extract_sql t) = _extract_sql t := by
    unfold candidateOf
    rw [hf]
    rcases hk with hk | hk
    · rw [hk]
    · rw [hk]
      rfl
  show finishCandidate (candidateOf (_extract_sql t)) = _extract_sql t
  rw [hcand]
  show finishCandidate (finishCandidate (candidateOf t)) = _extract_sql t
  exact finish_finish (candidateOf t)

theorem c5_amended_witness :
    _extract_sql (_extract_sql (str ("SELECT 1;"))) =
      _extract_sql (str ("SELECT 1;")) :=
  c5_amended (str ("SELECT 1;")) (by decide) (by decide) (Or.inr (by decide))

/-- C6 counterexample: for a readable database with zero tables the
Schema Introspector does not return the empty string. -/
theorem c6_counterexample : get_schema_text (some []) ≠ ("") := by
  decide

/-- C6 amended: for a readable database containing zero tables, the
Schema Introspector returns the fixed non-empty fallback string
(no schema read), not an error and not the empty descriptor. -/
theorem c6_amended : get_schema_text (some []) = ("(no schema read)") := rfl

/-- C7: whenever connecting or executing fails, run_sql_query returns an
error-message string value instead of raising: the failure is reported
on the same return channel as a tabular result, under a constructor
distinct from every table value. -/
theorem c7_error_channel (engine : String → Except String DataFrame)
    (q e : String) (h : engine q = Except.error e) :
    run_sql_query engine q =
        SqlResult.errorMsg (("Error executing SQL: ") ++ e) ∧
      ∀ df : DataFrame, run_sql_query engine q ≠ SqlResult.table df := by
  unfold run_sql_query
  rw [h]
  exact ⟨rfl, fun df hdf => SqlResult.noConfusion hdf⟩

theorem c7_witness :
    run_sql_query (fun _ => Except.error ("no such table: t"))
        ("SELECT * FROM t;") =
      SqlResult.errorMsg (("Error executing SQL: ") ++ ("no such table: t")) ∧
      ∀ df : DataFrame,
        run_sql_query (fun _ => Except.error ("no such table: t"))
          ("SELECT * FROM t;") ≠ SqlResult.table df :=
  c7_error_channel (fun _ => Except.error ("no such table: t"))
    ("SELECT * FROM t;") ("no such table: t") rfl

/-- C8: when the introspection fails (the connection cannot be opened or
a query raises), get_schema_text returns the fixed placeholder string
listing commonly expected table names instead of raising. -/
theorem c8_schema_fallback :
    get_schema_text none =
      ("(schema unavailable; valid Chinook tables include invoices, customers, invoice_items, tracks, albums, artists, genres)") :=
  rfl

/-- C10: whenever the lowercased user query contains one of the
line-chart keywords, decide_chart_type returns line regardless of the
dataframe argument: the keyword tests run before every data-driven
heuristic, and the line keywords are tested before the pie and bar
keywords. -/
theorem c10_line_keywords (user_query : Str) (df : Option DFInfo)
    (h : [str ("trend"), str ("over time"), str ("line chart"),
        str ("month"), str ("year")].any
        (fun k => decide (k <:+: user_query.map asciiLower)) = true) :
    decide_chart_type user_query df = some ("line") := by
  simp [decide_chart_type, h]

theorem c10_witness :
    decide_chart_type (str ("show sales trend vs budget"))
        (some (DFInfo.mk 3 (['O', 'i']))) = some ("line") :=
  c10_line_keywords (str ("show sales trend vs budget"))
    (some (DFInfo.mk 3 (['O', 'i']))) (by decide)

end TextToSql
